import Mathlib

/-!
Verification of the jump-table resolution core of this repository
(`angr/analyses/cfg/indirect_jump_resolvers/jumptable.py` and
`surveyors/slicecutor.py`) against its natural-language specification.

The Python code is shallowly embedded: pure fragments become Lean
functions, the stateful hooks become explicit state-passing functions,
and the external symbolic-execution engine is abstracted at exactly the
interface the resolver consumes (temp tables, abstract values with
cardinality / enumeration / minimum, byte-addressed memory).
-/

set_option autoImplicit false

namespace Angr

/-! ## Statement locations and VEX statements

`stmt_loc` values in `jumptable.py` are pairs `(block_addr, stmt_idx)`
where the index is either an ordinal or the string `'default'`
(the block's terminating control transfer). -/

inductive StmtID where
  | idx (n : Nat)
  | dflt
  deriving DecidableEq, Repr

abbrev StmtLoc := Nat × StmtID

/-- The shapes of pyvex expressions the locator distinguishes:
`Get` (register read), `RdTmp` (temp read), `Load` (memory load, whose
address operand is the temp `addrTmp`, i.e. `load_stmt.data.addr.tmp`),
and anything else. -/
inductive IRExpr where
  | Get (off : Nat)
  | RdTmp (t : Nat)
  | Load (addrTmp : Nat)
  | OtherE
  deriving DecidableEq, Repr

/-- The statement shapes the locator distinguishes: `WrTmp` (write temp),
`Put` (write register), and anything else. -/
inductive IRStmt where
  | WrTmp (t : Nat) (d : IRExpr)
  | Put (off : Nat) (d : IRExpr)
  | OtherS
  deriving DecidableEq, Repr

/-- The `stmt.data` field read by `resolve`: present exactly on
`WrTmp`/`Put` statements (`isinstance(stmt, (pyvex.IRStmt.WrTmp, pyvex.IRStmt.Put))`). -/
def stmtData : IRStmt → Option IRExpr
  | IRStmt.WrTmp _ d => some d
  | IRStmt.Put _ d => some d
  | IRStmt.OtherS => none

/-- `isinstance(stmt.data, (pyvex.IRExpr.Get, pyvex.IRExpr.RdTmp))`:
the data-transferring shapes. -/
def isMoveData : IRExpr → Bool
  | IRExpr.Get _ => true
  | IRExpr.RdTmp _ => true
  | _ => false

/-- `isinstance(stmt.data, pyvex.IRExpr.Load)`. -/
def isLoadData : IRExpr → Bool
  | IRExpr.Load _ => true
  | _ => false

/-- A statement is a data move when it is a `WrTmp`/`Put` whose data is a
`Get`/`RdTmp`. -/
def isMoveStmt (s : IRStmt) : Bool :=
  match stmtData s with
  | some d => isMoveData d
  | none => false

/-- Result of the backward walk in `JumpTableResolver.resolve`
(lines 79-103 of `jumptable.py`):
`fail` is the early `return False, None` on a hop with `len(preds) != 1`;
`notFound` is breaking out of the loop with `load_stmt_loc is None`
(the subsequent `return False, None`); `found` carries the load
statement's location, the statement itself and `stmts_to_remove`. -/
inductive LocResult where
  | outOfFuel
  | fail
  | notFound (removed : List StmtLoc)
  | found (loc : StmtLoc) (stmt : IRStmt) (removed : List StmtLoc)
  deriving DecidableEq, Repr

/-- The `while True:` walk of `resolve`: take the unique predecessor of the
current statement location; a data move is recorded in `stmts_to_remove`
and walked through; a load ends the walk successfully; any other shape
ends it without a load; a hop with `len(preds) != 1` fails the
resolution.  The Python loop has no structural bound, so the embedding
carries fuel; `outOfFuel` is never reached when the fuel exceeds the
chain length. -/
def locateLoadAux (preds : StmtLoc → List StmtLoc) (getStmt : Nat → StmtID → IRStmt) :
    Nat → StmtLoc → List StmtLoc → LocResult
  | 0, _, _ => LocResult.outOfFuel
  | fuel + 1, loc, removed =>
    match preds loc with
    | [p] =>
      match stmtData (getStmt p.1 p.2) with
      | some d =>
        if isMoveData d then
          locateLoadAux preds getStmt fuel p (removed ++ [p])
        else if isLoadData d then
          LocResult.found p (getStmt p.1 p.2) (removed ++ [p])
        else
          LocResult.notFound removed
      | none => LocResult.notFound removed
    | _ => LocResult.fail

/-- The walk starts at the jump's own statement location with
`stmts_to_remove = [stmt_loc]`. -/
def locateLoad (preds : StmtLoc → List StmtLoc) (getStmt : Nat → StmtID → IRStmt)
    (fuel : Nat) (jumpLoc : StmtLoc) : LocResult :=
  locateLoadAux preds getStmt fuel jumpLoc [jumpLoc]

/-- The backward slice produced by `Blade`: its node set and its
predecessor relation. -/
structure SliceGraph where
  nodes : List StmtLoc
  preds : StmtLoc → List StmtLoc

/-- The locator stage of `JumpTableResolver.resolve` (lines 75-117):
check that `(addr, 'default')` is in the slice, walk backward to the
load statement, and on success remove the jump statement, every walked
copy and the load statement from the slice
(`b.slice.remove_nodes_from(stmts_to_remove)`).  The returned trimmed
node list is what the Execution Guide (`AnnotatedCFG.from_digraph`) is
subsequently built from; `none` is `return False, None`. -/
def resolveLocator (g : SliceGraph) (getStmt : Nat → StmtID → IRStmt)
    (addr : Nat) (fuel : Nat) : Option (StmtLoc × IRStmt × List StmtLoc) :=
  let jumpLoc : StmtLoc := (addr, StmtID.dflt)
  if jumpLoc ∈ g.nodes then
    match locateLoad g.preds getStmt fuel jumpLoc with
    | LocResult.found loadLoc stmt removed =>
        some (loadLoc, stmt, g.nodes.filter (fun n => decide (n ∉ removed)))
    | _ => none
  else none

/-- `u` has unique predecessor `v` for each consecutive pair of the list:
a linear single-predecessor dependency chain in the slice. -/
def chainLinked (preds : StmtLoc → List StmtLoc) : List StmtLoc → Prop
  | [] => True
  | [_] => True
  | a :: b :: rest => preds a = [b] ∧ chainLinked preds (b :: rest)

theorem locateLoadAux_copies (preds : StmtLoc → List StmtLoc)
    (getStmt : Nat → StmtID → IRStmt) (copies : List StmtLoc) :
    ∀ (start : StmtLoc) (removed : List StmtLoc) (fuel : Nat),
      copies.length ≤ fuel →
      chainLinked preds (start :: copies) →
      (∀ c ∈ copies, isMoveStmt (getStmt c.1 c.2) = true) →
      locateLoadAux preds getStmt fuel start removed =
        locateLoadAux preds getStmt (fuel - copies.length)
          (copies.getLastD start) (removed ++ copies) := by
  induction copies with
  | nil =>
      intro start removed fuel _ _ _
      simp [List.getLastD]
  | cons c rest ih =>
      intro start removed fuel hfuel hlink hmoves
      obtain ⟨hpred, hlink'⟩ := hlink
      cases fuel with
      | zero => simp at hfuel
      | succ fuel =>
          have hmove : isMoveStmt (getStmt c.1 c.2) = true :=
            hmoves c (by simp)
          obtain ⟨d, hd, hdm⟩ : ∃ d, stmtData (getStmt c.1 c.2) = some d ∧ isMoveData d = true := by
            unfold isMoveStmt at hmove
            cases h : stmtData (getStmt c.1 c.2) with
            | none => rw [h] at hmove; simp at hmove
            | some d => rw [h] at hmove; exact ⟨d, rfl, hmove⟩
          have hstep : locateLoadAux preds getStmt (fuel + 1) start removed =
              locateLoadAux preds getStmt fuel c (removed ++ [c]) := by
            simp [locateLoadAux, hpred, hd, hdm]
          rw [hstep]
          have hfuel' : rest.length ≤ fuel := by
            simpa [Nat.succ_le_succ_iff] using hfuel
          have harith : fuel + 1 - (c :: rest).length = fuel - rest.length := by
            simp
          rw [harith]
          have := ih c (removed ++ [c]) fuel hfuel' hlink'
            (fun x hx => hmoves x (by simp [hx]))
          rw [this]
          have hlast : (c :: rest).getLastD start = rest.getLastD c := by
            cases rest <;> simp [List.getLastD]
          rw [hlast]
          simp [List.append_assoc]

theorem locateLoadAux_load_step (preds : StmtLoc → List StmtLoc)
    (getStmt : Nat → StmtID → IRStmt) (loc loadLoc : StmtLoc) (removed : List StmtLoc)
    (fuel : Nat) (t : Nat)
    (hpred : preds loc = [loadLoc])
    (hload : stmtData (getStmt loadLoc.1 loadLoc.2) = some (IRExpr.Load t)) :
    locateLoadAux preds getStmt (fuel + 1) loc removed =
      LocResult.found loadLoc (getStmt loadLoc.1 loadLoc.2) (removed ++ [loadLoc]) := by
  simp [locateLoadAux, hpred, hload, isMoveData, isLoadData]

theorem locateLoadAux_branch_step (preds : StmtLoc → List StmtLoc)
    (getStmt : Nat → StmtID → IRStmt) (loc : StmtLoc) (removed : List StmtLoc)
    (fuel : Nat)
    (hpred : (preds loc).length ≠ 1) :
    locateLoadAux preds getStmt (fuel + 1) loc removed = LocResult.fail := by
  unfold locateLoadAux
  match h : preds loc with
  | [] => rfl
  | [p] => rw [h] at hpred; simp at hpred
  | p :: q :: rest => rfl

/-- **C1.** The Load-Statement Locator of `JumpTableResolver.resolve`: given a
backward dependency chain from the jump's statement location `(addr, 'default')`
through single-predecessor data-move statements `copies`, (i) if the next unique
predecessor is a memory-load statement, the walk passes through every copy and
selects exactly that load — regardless of the chain's length — and resolution
removes the jump statement, every walked copy and the load statement from the
slice graph before the Execution Guide is built from it; (ii) if the hop at the
end of the copy chain has zero or more than one predecessors, resolution fails
with `(False, None)`. -/
theorem c1_locator_walk (g : SliceGraph) (getStmt : Nat → StmtID → IRStmt)
    (addr : Nat) (fuel : Nat) (copies : List StmtLoc)
    (hmem : ((addr, StmtID.dflt) : StmtLoc) ∈ g.nodes)
    (hlink : chainLinked g.preds ((addr, StmtID.dflt) :: copies))
    (hmoves : ∀ c ∈ copies, isMoveStmt (getStmt c.1 c.2) = true)
    (hfuel : copies.length + 1 ≤ fuel) :
    (∀ loadLoc t, g.preds (copies.getLastD (addr, StmtID.dflt)) = [loadLoc] →
        stmtData (getStmt loadLoc.1 loadLoc.2) = some (IRExpr.Load t) →
        resolveLocator g getStmt addr fuel =
          some (loadLoc, getStmt loadLoc.1 loadLoc.2,
            g.nodes.filter (fun n =>
              decide (n ∉ (addr, StmtID.dflt) :: (copies ++ [loadLoc]))))) ∧
    ((g.preds (copies.getLastD (addr, StmtID.dflt))).length ≠ 1 →
        resolveLocator g getStmt addr fuel = none) := by
  have hwalk := locateLoadAux_copies g.preds getStmt copies (addr, StmtID.dflt)
    [(addr, StmtID.dflt)] fuel (by omega) hlink hmoves
  obtain ⟨k, hk⟩ : ∃ k, fuel - copies.length = k + 1 := by
    refine ⟨fuel - copies.length - 1, ?_⟩
    omega
  constructor
  · intro loadLoc t hpred hload
    have hend := locateLoadAux_load_step g.preds getStmt
      (copies.getLastD (addr, StmtID.dflt)) loadLoc
      ([(addr, StmtID.dflt)] ++ copies) k t hpred hload
    unfold resolveLocator
    rw [if_pos hmem]
    unfold locateLoad
    rw [hwalk, hk, hend]
    simp
  · intro hpred
    have hend := locateLoadAux_branch_step g.preds getStmt
      (copies.getLastD (addr, StmtID.dflt)) ([(addr, StmtID.dflt)] ++ copies) k hpred
    unfold resolveLocator
    rw [if_pos hmem]
    unfold locateLoad
    rw [hwalk, hk, hend]

/-- A concrete five-node slice: jump at `(16, default)`, a register-to-temp /
temp-to-register copy chain at indices 3 and 2, a load at index 1, and an
unrelated node at index 0. -/
def sliceC1 : SliceGraph where
  nodes := [(16, StmtID.dflt), (16, StmtID.idx 3), (16, StmtID.idx 2),
    (16, StmtID.idx 1), (16, StmtID.idx 0)]
  preds := fun l =>
    if l = ((16 : Nat), StmtID.dflt) then [(16, StmtID.idx 3)]
    else if l = ((16 : Nat), StmtID.idx 3) then [(16, StmtID.idx 2)]
    else if l = ((16 : Nat), StmtID.idx 2) then [(16, StmtID.idx 1)]
    else []

/-- Statements of the block at address 16 backing `sliceC1`. -/
def stmtsC1 : Nat → StmtID → IRStmt := fun a i =>
  if a = 16 ∧ i = StmtID.idx 3 then IRStmt.Put 8 (IRExpr.RdTmp 2)
  else if a = 16 ∧ i = StmtID.idx 2 then IRStmt.WrTmp 2 (IRExpr.RdTmp 1)
  else if a = 16 ∧ i = StmtID.idx 1 then IRStmt.WrTmp 1 (IRExpr.Load 0)
  else IRStmt.OtherS

theorem c1_locator_walk_witness :
    resolveLocator sliceC1 stmtsC1 16 3 =
      some (((16 : Nat), StmtID.idx 1), stmtsC1 16 (StmtID.idx 1),
        sliceC1.nodes.filter (fun n =>
          decide (n ∉ ((16 : Nat), StmtID.dflt) ::
            ([((16 : Nat), StmtID.idx 3), ((16 : Nat), StmtID.idx 2)] ++
              [((16 : Nat), StmtID.idx 1)])))) :=
  (c1_locator_walk sliceC1 stmtsC1 16 3
      [(16, StmtID.idx 3), (16, StmtID.idx 2)]
      (by decide) ⟨rfl, rfl, trivial⟩ (by decide) (by decide)).1
    (16, StmtID.idx 1) 0 (by decide) (by decide)

/-! ## The Slicecutor (`surveyors/slicecutor.py`)

The annotated CFG (`AnnotatedCFG`) is the Execution Guide: its
`should_take_exit` either returns a boolean or raises (the `except
Exception` branch of `tick_path`), embedded as `Option Bool` with `none`
for "raises / unknown".  A `Path` is embedded by the data `tick_path`
reads from it: the address of its last run and the concretized
destinations of its currently reachable flat exits.  The external
engine's `Path.continue_through_exit` is a parameter `cont`; `tick_path`
only controls which exit and which whitelist / last-statement-index
`cont` receives. -/

structure Guide where
  should_take_exit : Nat → Nat → Option Bool
  get_whitelisted_statements : Nat → Option (List Nat)
  get_last_statement_index : Nat → Option Nat

structure Path where
  addr : Nat
  exits : List Nat
  deriving DecidableEq, Repr

/-- One continuation attempt of the engine: given the path, the exit's
concretized destination, and the whitelist and last-statement-index
passed through, produce the successor path (or `none` when the
continuation fails and the path is dropped). -/
abbrev Cont := Path → Nat → Option (List Nat) → Option Nat → Option Path

/-- `Slicecutor.tick_path_exit`: concretize the exit's destination and
continue through it restricted to the annotated CFG's whitelisted
statements and last statement index for that destination address. -/
def tick_path_exit (g : Guide) (cont : Cont) (p : Path) (e : Nat) : Option Path :=
  cont p e (g.get_whitelisted_statements e) (g.get_last_statement_index e)

structure TickResult where
  new_paths : List Path
  mystery : Bool
  cut : Bool
  deriving DecidableEq, Repr

/-- The `for e in path_exits:` loop body of `Slicecutor.tick_path`:
an exit the guide does not know about sets the `mystery` flag and is not
continued; a "not taken" answer sets the `cut` flag and is not
continued; a "taken" answer is continued through `tick_path_exit`, and a
successful continuation joins the new active paths. -/
def tick_exits (g : Guide) (cont : Cont) (p : Path) : List Nat → TickResult
  | [] => { new_paths := [], mystery := false, cut := false }
  | e :: rest =>
    let r := tick_exits g cont p rest
    match g.should_take_exit p.addr e with
    | none => { r with mystery := true }
    | some true =>
        match tick_path_exit g cont p e with
        | some q => { r with new_paths := q :: r.new_paths }
        | none => r
    | some false => { r with cut := true }

/-- `Slicecutor.tick_path` over the path's reachable flat exits. -/
def tick_path (g : Guide) (cont : Cont) (p : Path) : TickResult :=
  tick_exits g cont p p.exits

/-- The path collections owned by the Slicecutor: `active` (from the
`Surveyor` base), `mysteries`, `cut`, and `reached_targets`. -/
structure SlicecutorState where
  active : List Path
  mysteries : List Path
  cut : List Path
  reached_targets : List Path
  deriving DecidableEq, Repr

/-- The end of one `tick_path` call: new paths join the active set, and
the ticked path is appended to `mysteries` if the mystery flag was set
and to `cut` if the cut flag was set (`if mystery: ...` and `if cut:
...` are two independent conditionals). -/
def record_tick (s : SlicecutorState) (p : Path) (r : TickResult) : SlicecutorState :=
  { s with
    active := s.active ++ r.new_paths,
    mysteries := if r.mystery then s.mysteries ++ [p] else s.mysteries,
    cut := if r.cut then s.cut ++ [p] else s.cut }

/-- One full tick of one active path. -/
def tick_one (g : Guide) (cont : Cont) (s : SlicecutorState) (p : Path) : SlicecutorState :=
  record_tick s p (tick_path g cont p)

theorem tick_exits_sound (g : Guide) (cont : Cont) (p : Path) :
    ∀ (es : List Nat) (q : Path), q ∈ (tick_exits g cont p es).new_paths →
      ∃ e ∈ es, g.should_take_exit p.addr e = some true ∧
        cont p e (g.get_whitelisted_statements e) (g.get_last_statement_index e) = some q := by
  intro es
  induction es with
  | nil => intro q hq; simp [tick_exits] at hq
  | cons e rest ih =>
      intro q hq
      unfold tick_exits at hq
      cases h : g.should_take_exit p.addr e with
      | none =>
          rw [h] at hq
          obtain ⟨x, hx, hc⟩ := ih q hq
          exact ⟨x, by simp [hx], hc⟩
      | some b =>
          cases b with
          | false =>
              rw [h] at hq
              obtain ⟨x, hx, hc⟩ := ih q hq
              exact ⟨x, by simp [hx], hc⟩
          | true =>
              rw [h] at hq
              cases hc : tick_path_exit g cont p e with
              | none =>
                  rw [hc] at hq
                  obtain ⟨x, hx, hcx⟩ := ih q hq
                  exact ⟨x, by simp [hx], hcx⟩
              | some q' =>
                  rw [hc] at hq
                  simp only [List.mem_cons] at hq
                  cases hq with
                  | inl hq =>
                      subst hq
                      exact ⟨e, by simp, h, hc⟩
                  | inr hq =>
                      obtain ⟨x, hx, hcx⟩ := ih q hq
                      exact ⟨x, by simp [hx], hcx⟩

/-- **C2.** Soundness of the guide in `Slicecutor.tick_path`: every new
active path produced by a tick came from an exit whose guide answer was
"taken" (`should_take_exit(src, dst) == True`), and its continuation was
performed by `tick_path_exit`, i.e. restricted to exactly the guide's
statement whitelist and last-statement-index for the destination
address — no edge the guide refuses or does not know, and no whitelist
other than the guide's, is ever used. -/
theorem c2_guide_soundness (g : Guide) (cont : Cont) (p : Path) :
    ∀ q ∈ (tick_path g cont p).new_paths,
      ∃ e ∈ p.exits, g.should_take_exit p.addr e = some true ∧
        tick_path_exit g cont p e = some q ∧
        cont p e (g.get_whitelisted_statements e) (g.get_last_statement_index e) = some q := by
  intro q hq
  obtain ⟨e, he, htaken, hc⟩ := tick_exits_sound g cont p p.exits q hq
  exact ⟨e, he, htaken, hc, hc⟩

def guideC2 : Guide where
  should_take_exit := fun s d =>
    if s = 0 ∧ d = 1 then some true
    else if s = 0 ∧ d = 2 then some false
    else none
  get_whitelisted_statements := fun a => if a = 1 then some [0, 2] else none
  get_last_statement_index := fun a => if a = 1 then some 2 else none

def contC2 : Cont := fun _ e _ _ => some { addr := e, exits := [] }

def pathC2 : Path := { addr := 0, exits := [1, 2] }

theorem c2_guide_soundness_witness :
    ∃ e ∈ pathC2.exits, guideC2.should_take_exit pathC2.addr e = some true ∧
      tick_path_exit guideC2 contC2 pathC2 e = some { addr := 1, exits := [] } ∧
      contC2 pathC2 e (guideC2.get_whitelisted_statements e)
        (guideC2.get_last_statement_index e) = some { addr := 1, exits := [] } :=
  c2_guide_soundness guideC2 contC2 pathC2 { addr := 1, exits := [] } (by decide)

theorem tick_exits_mystery_iff (g : Guide) (cont : Cont) (p : Path) :
    ∀ es : List Nat, ((tick_exits g cont p es).mystery = true ↔
      ∃ e ∈ es, g.should_take_exit p.addr e = none) := by
  intro es
  induction es with
  | nil => simp [tick_exits]
  | cons e rest ih =>
      unfold tick_exits
      cases h : g.should_take_exit p.addr e with
      | none => simp [h, ih]
      | some b =>
          cases b with
          | true =>
              cases hc : tick_path_exit g cont p e with
              | none => simp [h, hc, ih]
              | some q => simp [h, hc, ih]
          | false => simp [h, ih]

theorem tick_exits_cut_iff (g : Guide) (cont : Cont) (p : Path) :
    ∀ es : List Nat, ((tick_exits g cont p es).cut = true ↔
      ∃ e ∈ es, g.should_take_exit p.addr e = some false) := by
  intro es
  induction es with
  | nil => simp [tick_exits]
  | cons e rest ih =>
      unfold tick_exits
      cases h : g.should_take_exit p.addr e with
      | none => simp [h, ih]
      | some b =>
          cases b with
          | true =>
              cases hc : tick_path_exit g cont p e with
              | none => simp [h, hc, ih]
              | some q => simp [h, hc, ih]
          | false => simp [h, ih]

def guideC6 : Guide where
  should_take_exit := fun s d => if s = 0 ∧ d = 2 then some false else none
  get_whitelisted_statements := fun _ => none
  get_last_statement_index := fun _ => none

def contC6 : Cont := fun _ e _ _ => some { addr := e, exits := [] }

def pathC6 : Path := { addr := 0, exits := [1, 2] }

def emptySlicecutorState : SlicecutorState :=
  { active := [], mysteries := [], cut := [], reached_targets := [] }

/-- **C6 counterexample.** The five classes are not mutually exclusive:
in `tick_path` the `mystery` and `cut` flags are set independently per
exit, and at the end the path is appended to *both* `self.mysteries`
and `self.cut` when one of its exits was unknown to the annotated CFG
and another was refused.  Concretely, a path at address 0 with exits
`[1, 2]` where the guide does not know `0 → 1` and refuses `0 → 2`
is recorded simultaneously as mystery and as cut after one tick. -/
theorem c6_counterexample :
    pathC6 ∈ (tick_one guideC6 contC6 emptySlicecutorState pathC6).mysteries ∧
    pathC6 ∈ (tick_one guideC6 contC6 emptySlicecutorState pathC6).cut := by
  decide

/-- **C6 (amended).** After one tick a path is recorded as mystery
exactly when some exit's guide answer is unknown, and as cut exactly
when some exit is refused; the two recordings are independent, so a
path with one unknown and one refused exit lands in both collections —
the classification is not mutually exclusive. -/
theorem c6_amended_classification (g : Guide) (cont : Cont) (p : Path) :
    ((tick_path g cont p).mystery = true ↔
      ∃ e ∈ p.exits, g.should_take_exit p.addr e = none) ∧
    ((tick_path g cont p).cut = true ↔
      ∃ e ∈ p.exits, g.should_take_exit p.addr e = some false) :=
  ⟨tick_exits_mystery_iff g cont p p.exits, tick_exits_cut_iff g cont p p.exits⟩

/-- Modelled from the spec: the `targets` parameter and `reached_targets`
collection of the Slicecutor.  `JumpTableResolver.resolve` constructs
`Slicecutor(..., targets=(load_stmt_loc[0],), force_taking_exit=True)` and
consumes `slicecutor.reached_targets`, but the copy of
`surveyors/slicecutor.py` in this tree predates that parameter and has no
`reached_targets`; per §4.3 of the spec, a Path whose current address equals
one of the configured target addresses is promoted to reached-target, stops
generating further exits, and is handed back to the resolver as a resolution
candidate. -/
def tick_dispatch (g : Guide) (cont : Cont) (targets : List Nat)
    (s : SlicecutorState) (p : Path) : SlicecutorState :=
  if p.addr ∈ targets then
    { s with reached_targets := s.reached_targets ++ [p] }
  else
    tick_one g cont s p

/-- **C5.** A path whose current address equals one of the configured target
addresses is promoted to reached-target: it is appended to the
`reached_targets` collection consumed by the resolver, and it generates no
further exits (the active, mysteries and cut collections are untouched). -/
theorem c5_reached_target_promotion (g : Guide) (cont : Cont) (targets : List Nat)
    (s : SlicecutorState) (p : Path) (h : p.addr ∈ targets) :
    (tick_dispatch g cont targets s p).reached_targets = s.reached_targets ++ [p] ∧
    (tick_dispatch g cont targets s p).active = s.active ∧
    (tick_dispatch g cont targets s p).mysteries = s.mysteries ∧
    (tick_dispatch g cont targets s p).cut = s.cut := by
  simp [tick_dispatch, h]

def contC5 : Cont := fun _ e _ _ => some { addr := e, exits := [] }

def pathC5 : Path := { addr := 7, exits := [9] }

theorem c5_reached_target_promotion_witness :
    (tick_dispatch guideC2 contC5 [7] emptySlicecutorState pathC5).reached_targets =
      emptySlicecutorState.reached_targets ++ [pathC5] ∧
    (tick_dispatch guideC2 contC5 [7] emptySlicecutorState pathC5).active =
      emptySlicecutorState.active ∧
    (tick_dispatch guideC2 contC5 [7] emptySlicecutorState pathC5).mysteries =
      emptySlicecutorState.mysteries ∧
    (tick_dispatch guideC2 contC5 [7] emptySlicecutorState pathC5).cut =
      emptySlicecutorState.cut :=
  c5_reached_target_promotion guideC2 contC5 [7] emptySlicecutorState pathC5 (by decide)

/-! ## Target enumeration and the Indirect Jump Record
(`JumpTableResolver.resolve`, lines 150-202)

The engine's value-set abstract domain is embedded as the list of
distinct concrete values a value can take, in the engine's enumeration
order: `cardinality` is `jump_addr._model_vsa.cardinality`,
`any_n_int v n` is `state.se.any_n_int(jump_addr, n)` (the first `n`
distinct values), and `se_min` is `state.se.min(jump_addr)`. -/

/-- A value of the value-set domain: its distinct concrete values in
enumeration order. -/
structure AbsVal where
  vals : List Nat
  nodup : vals.Nodup

instance : DecidableEq AbsVal := fun a b =>
  decidable_of_iff (a.vals = b.vals) (by cases a; cases b; simp)

def cardinality (v : AbsVal) : Nat := v.vals.length

def any_n_int (v : AbsVal) (n : Nat) : List Nat := v.vals.take n

def se_min (v : AbsVal) : Nat := v.vals.min?.getD 0

/-- Little-endian read of `n` bytes starting at `addr`. -/
def readBytesLE (mem : Nat → Nat) (addr : Nat) : Nat → Nat
  | 0 => 0
  | n + 1 => mem addr % 256 + 256 * readBytesLE mem (addr + 1) n

/-- Big-endian read of `n` bytes starting at `addr`. -/
def readBytesBE (mem : Nat → Nat) (addr : Nat) : Nat → Nat
  | 0 => 0
  | n + 1 => mem addr % 256 * 256 ^ n + readBytesBE mem (addr + 1) n

/-- The slice of an engine state that the enumerator consumes: the
per-block temp table (`state.scratch.temps`), byte-addressed memory,
the architecture's word width in bits and its memory byte order. -/
structure TState where
  temps : Nat → Option AbsVal
  mem : Nat → Nat
  bits : Nat
  little_endian : Bool

/-- `state.memory.load(a, state.arch.bits / 8, endness=state.arch.memory_endness)`
followed by `state.se.any_int(...)`: one machine word at `a` in the
architecture's byte order. -/
def memLoadWord (st : TState) (a : Nat) : Nat :=
  if st.little_endian then readBytesLE st.mem a (st.bits / 8)
  else readBytesBE st.mem a (st.bits / 8)

/-- The per-jump-address record in `cfg.indirect_jumps` mutated on
success (`ij.jumptable`, `ij.jumptable_addr`, `ij.jumptable_targets`,
`ij.jumptable_entries`). -/
structure IndirectJump where
  jumptable : Bool
  jumptable_addr : Option Nat
  jumptable_targets : Option (List Nat)
  jumptable_entries : Option Nat
  deriving DecidableEq, Repr

/-- Outcome of examining one reached-target candidate:
`skip` covers `continue` (no successor state, or the load address temp
absent from `state.scratch.temps`); `tooMany` is the
`total_cases > self._max_targets` early `return False, None`;
`success` carries `all_targets` and the record written to
`cfg.indirect_jumps[addr]`. -/
inductive CandResult where
  | skip
  | tooMany
  | success (targets : List Nat) (ij : IndirectJump)
  deriving DecidableEq, Repr

/-- The body of `for r in slicecutor.reached_targets:`: take the first
successor state (`all_states[0]`), look up the load address temp, bound
the value's cardinality by `_max_targets`, and otherwise enumerate every
distinct concrete value, loading one machine word at each in enumeration
order, building both `all_targets` and the record fields. -/
def process_candidate (max_targets load_addr_tmp : Nat) (succs : List TState) :
    CandResult :=
  match succs with
  | [] => CandResult.skip
  | st :: _ =>
    match st.temps load_addr_tmp with
    | none => CandResult.skip
    | some jump_addr =>
      let total_cases := cardinality jump_addr
      if total_cases > max_targets then CandResult.tooMany
      else
        let targets := (any_n_int jump_addr total_cases).map (memLoadWord st)
        CandResult.success targets
          { jumptable := true,
            jumptable_addr := some (se_min jump_addr),
            jumptable_targets := some targets,
            jumptable_entries := some total_cases }

/-- One slice entry point (`for src_irsb, _ in sources:`): either the
guided replay raised `KeyError` (incomplete slice, the entry point is
skipped), or it terminated with a list of reached-target candidates,
each giving its successor-state list
(`succ.flat_successors + succ.unconstrained_successors`). -/
inductive EntryOutcome where
  | keyError
  | reached (cands : List (List TState))

/-- The inner candidate loop: the first candidate that is not skipped
decides the call's result (`tooMany` returns `(False, None)` with the
record unmutated; `success` returns `(True, all_targets)` with the
record overwritten); if every candidate is skipped the loop falls
through to the next entry point. -/
def process_cands (max_targets load_addr_tmp : Nat) (ij0 : IndirectJump) :
    List (List TState) → Option ((Bool × Option (List Nat)) × IndirectJump)
  | [] => none
  | c :: rest =>
    match process_candidate max_targets load_addr_tmp c with
    | CandResult.skip => process_cands max_targets load_addr_tmp ij0 rest
    | CandResult.tooMany => some ((false, none), ij0)
    | CandResult.success t r => some ((true, some t), r)

/-- The outer entry-point loop of `resolve` together with the final
`return False, None`: the pair returned is `(resolved, targets)` and the
final state of the jump's Indirect Jump Record (`ij0` when untouched). -/
def resolve_loop (max_targets load_addr_tmp : Nat) (ij0 : IndirectJump) :
    List EntryOutcome → (Bool × Option (List Nat)) × IndirectJump
  | [] => ((false, none), ij0)
  | EntryOutcome.keyError :: rest => resolve_loop max_targets load_addr_tmp ij0 rest
  | EntryOutcome.reached cands :: rest =>
    match process_cands max_targets load_addr_tmp ij0 cands with
    | some out => out
    | none => resolve_loop max_targets load_addr_tmp ij0 rest

theorem se_min_spec (v : AbsVal) (h : v.vals ≠ []) :
    se_min v ∈ v.vals ∧ ∀ x ∈ v.vals, se_min v ≤ x := by
  cases hm : v.vals.min? with
  | none => exact absurd (List.min?_eq_none_iff.mp hm) h
  | some m =>
      have hmem : m ∈ v.vals := List.min?_mem (fun a b => min_choice a b) hm
      have hle : ∀ x ∈ v.vals, m ≤ x :=
        (List.le_min?_iff (fun a b c => le_min_iff) hm).mp (le_refl m)
      constructor
      · simpa [se_min, hm] using hmem
      · intro x hx
        simpa [se_min, hm] using hle x hx

/-- **C3.** On a successful resolution the target list enumerates *all*
distinct concrete values of the load-address abstract value (its `vals`
are distinct by the domain invariant), reads one machine word at each in
the architecture's byte order and appends the concretized word in
enumeration order; the written record has `is_jump_table = true`,
`table_address` equal to the minimum concrete value of the load address,
`entry_count` equal to the value's cardinality, and
`len(targets) = entry_count`. -/
theorem c3_enumeration_and_record (max_targets load_addr_tmp : Nat)
    (st : TState) (rest : List TState) (v : AbsVal)
    (htmp : st.temps load_addr_tmp = some v)
    (hcard : cardinality v ≤ max_targets)
    (hne : v.vals ≠ []) :
    process_candidate max_targets load_addr_tmp (st :: rest) =
      CandResult.success (v.vals.map (memLoadWord st))
        { jumptable := true,
          jumptable_addr := some (se_min v),
          jumptable_targets := some (v.vals.map (memLoadWord st)),
          jumptable_entries := some (cardinality v) } ∧
    (v.vals.map (memLoadWord st)).length = cardinality v ∧
    se_min v ∈ v.vals ∧ (∀ x ∈ v.vals, se_min v ≤ x) ∧
    v.vals.Nodup := by
  refine ⟨?_, ?_, (se_min_spec v hne).1, (se_min_spec v hne).2, v.nodup⟩
  · have hnotgt : ¬ cardinality v > max_targets := Nat.not_lt.mpr hcard
    simp [process_candidate, htmp, hnotgt, any_n_int, cardinality]
    exact hcard
  · simp [cardinality]

def vC3 : AbsVal := ⟨[300, 302], by decide⟩

def stC3 : TState where
  temps := fun t => if t = 4 then some vC3 else none
  mem := fun a => if a = 300 then 5 else if a = 301 then 1 else if a = 302 then 2 else 0
  bits := 16
  little_endian := true

theorem c3_enumeration_and_record_witness :
    process_candidate 8 4 [stC3] =
      CandResult.success (vC3.vals.map (memLoadWord stC3))
        { jumptable := true,
          jumptable_addr := some (se_min vC3),
          jumptable_targets := some (vC3.vals.map (memLoadWord stC3)),
          jumptable_entries := some (cardinality vC3) } ∧
    (vC3.vals.map (memLoadWord stC3)).length = cardinality vC3 ∧
    se_min vC3 ∈ vC3.vals ∧ (∀ x ∈ vC3.vals, se_min vC3 ≤ x) ∧
    vC3.vals.Nodup :=
  c3_enumeration_and_record 8 4 stC3 [] vC3 (by decide) (by decide) (by decide)

/-- **C4.** When the cardinality of the load-address abstract value
exceeds the configured maximum target count, the candidate yields
`tooMany` and the *whole* resolution attempt returns `(False, None)` at
once — no remaining candidate of this entry point and no later entry
point is tried, and the jump's Indirect Jump Record is left unmutated. -/
theorem c4_too_many_targets (max_targets load_addr_tmp : Nat) (ij0 : IndirectJump)
    (st : TState) (rest : List TState) (v : AbsVal)
    (htmp : st.temps load_addr_tmp = some v)
    (hcard : max_targets < cardinality v) :
    process_candidate max_targets load_addr_tmp (st :: rest) = CandResult.tooMany ∧
    ∀ (more : List (List TState)) (entries : List EntryOutcome),
      resolve_loop max_targets load_addr_tmp ij0
          (EntryOutcome.reached ((st :: rest) :: more) :: entries) =
        ((false, none), ij0) := by
  have h1 : process_candidate max_targets load_addr_tmp (st :: rest) =
      CandResult.tooMany := by
    simp [process_candidate, htmp, hcard]
  refine ⟨h1, ?_⟩
  intro more entries
  simp [resolve_loop, process_cands, h1]

def vC4 : AbsVal := ⟨[10, 11, 12], by decide⟩

def stC4 : TState where
  temps := fun t => if t = 0 then some vC4 else none
  mem := fun _ => 0
  bits := 16
  little_endian := true

def ijC4 : IndirectJump :=
  { jumptable := false, jumptable_addr := none,
    jumptable_targets := none, jumptable_entries := none }

theorem c4_too_many_targets_witness :
    process_candidate 2 0 [stC4] = CandResult.tooMany ∧
    ∀ (more : List (List TState)) (entries : List EntryOutcome),
      resolve_loop 2 0 ijC4 (EntryOutcome.reached ([stC4] :: more) :: entries) =
        ((false, none), ijC4) :=
  c4_too_many_targets 2 0 ijC4 stC4 [] vC4 (by decide) (by decide)

/-- A candidate "exhausts" when it is skipped (no successor state, or
the load address temp absent); an entry point exhausts when its replay
raised `KeyError` or every candidate is skipped. -/
def cand_exhausts (max_targets load_addr_tmp : Nat) (c : List TState) : Bool :=
  match process_candidate max_targets load_addr_tmp c with
  | CandResult.skip => true
  | _ => false

def entry_exhausts (max_targets load_addr_tmp : Nat) : EntryOutcome → Bool
  | EntryOutcome.keyError => true
  | EntryOutcome.reached cands => cands.all (cand_exhausts max_targets load_addr_tmp)

def all_exhausted (max_targets load_addr_tmp : Nat) (entries : List EntryOutcome) : Bool :=
  entries.all (entry_exhausts max_targets load_addr_tmp)

theorem process_cands_all_skip (max_targets load_addr_tmp : Nat) (ij0 : IndirectJump) :
    ∀ cands : List (List TState),
      cands.all (cand_exhausts max_targets load_addr_tmp) = true →
      process_cands max_targets load_addr_tmp ij0 cands = none := by
  intro cands
  induction cands with
  | nil => intro _; rfl
  | cons c rest ih =>
      intro h
      rw [List.all_cons, Bool.and_eq_true] at h
      obtain ⟨hc, hrest⟩ := h
      have hskip : process_candidate max_targets load_addr_tmp c = CandResult.skip := by
        unfold cand_exhausts at hc
        cases hp : process_candidate max_targets load_addr_tmp c with
        | skip => rfl
        | tooMany => rw [hp] at hc; simp at hc
        | success t r => rw [hp] at hc; simp at hc
      simp [process_cands, hskip, ih hrest]

def ijC9 : IndirectJump :=
  { jumptable := false, jumptable_addr := none,
    jumptable_targets := none, jumptable_entries := none }

def vC9big : AbsVal := ⟨[10, 11, 12], by decide⟩

def vC9one : AbsVal := ⟨[20], by decide⟩

def stC9big : TState where
  temps := fun t => if t = 0 then some vC9big else none
  mem := fun _ => 0
  bits := 16
  little_endian := true

def stC9good : TState where
  temps := fun t => if t = 0 then some vC9one else none
  mem := fun _ => 0
  bits := 16
  little_endian := true

def entriesC9 : List EntryOutcome := [EntryOutcome.reached [[stC9big], [stC9good]]]

/-- **C9 counterexample.** Overall failure is *not* only on exhaustion:
with `max_targets = 1`, an entry point whose first reached-target
candidate has cardinality 3 makes `resolve` return `(False, None)`
immediately, even though the second candidate was never tried and would
have resolved successfully; that second candidate is not "exhausted
without success". -/
theorem c9_counterexample :
    resolve_loop 1 0 ijC9 entriesC9 = ((false, none), ijC9) ∧
    all_exhausted 1 0 entriesC9 = false ∧
    process_candidate 1 0 [stC9good] =
      CandResult.success [0]
        { jumptable := true, jumptable_addr := some 20,
          jumptable_targets := some [0], jumptable_entries := some 1 } := by
  decide

/-- **C9 (amended).** Errors local to one slice entry point (incomplete
slice replay, i.e. `KeyError`) or to one reached-target candidate (no
successor state, or the load address temp absent) cause only that entry
point or candidate to be skipped, with the next one tried; exhausting
every entry point and candidate without success yields `(False, None)`
with the record unmutated — but `resolve` also returns `(False, None)`
without trying the remaining candidates when a candidate's cardinality
exceeds the maximum target count. -/
theorem c9_amended_propagation (max_targets load_addr_tmp : Nat) (ij0 : IndirectJump) :
    (∀ rest, resolve_loop max_targets load_addr_tmp ij0 (EntryOutcome.keyError :: rest) =
        resolve_loop max_targets load_addr_tmp ij0 rest) ∧
    (∀ c cands rest, process_candidate max_targets load_addr_tmp c = CandResult.skip →
        resolve_loop max_targets load_addr_tmp ij0
            (EntryOutcome.reached (c :: cands) :: rest) =
          resolve_loop max_targets load_addr_tmp ij0 (EntryOutcome.reached cands :: rest)) ∧
    (∀ rest, resolve_loop max_targets load_addr_tmp ij0 (EntryOutcome.reached [] :: rest) =
        resolve_loop max_targets load_addr_tmp ij0 rest) ∧
    (∀ entries, all_exhausted max_targets load_addr_tmp entries = true →
        resolve_loop max_targets load_addr_tmp ij0 entries = ((false, none), ij0)) := by
  refine ⟨fun rest => rfl, ?_, fun rest => rfl, ?_⟩
  · intro c cands rest hskip
    simp [resolve_loop, process_cands, hskip]
  · intro entries
    induction entries with
    | nil => intro _; rfl
    | cons e rest ih =>
        intro h
        rw [all_exhausted, List.all_cons, Bool.and_eq_true] at h
        obtain ⟨he, hrest⟩ := h
        cases e with
        | keyError => simpa [resolve_loop] using ih hrest
        | reached cands =>
            have hnone := process_cands_all_skip max_targets load_addr_tmp ij0 cands he
            simpa [resolve_loop, hnone] using ih hrest

theorem c9_amended_propagation_witness :
    resolve_loop 3 0 ijC9 [EntryOutcome.keyError] = resolve_loop 3 0 ijC9 [] ∧
    resolve_loop 3 0 ijC9 [EntryOutcome.reached ([] :: [])] =
      resolve_loop 3 0 ijC9 [EntryOutcome.reached []] ∧
    resolve_loop 3 0 ijC9 [EntryOutcome.reached []] = resolve_loop 3 0 ijC9 [] ∧
    resolve_loop 3 0 ijC9 [EntryOutcome.keyError] = ((false, none), ijC9) :=
  ⟨(c9_amended_propagation 3 0 ijC9).1 [],
   (c9_amended_propagation 3 0 ijC9).2.1 [] [] [] (by decide),
   (c9_amended_propagation 3 0 ijC9).2.2.1 [],
   (c9_amended_propagation 3 0 ijC9).2.2.2 [EntryOutcome.keyError] (by decide)⟩

/-! ## Uninitialized-memory policy (`_init_registers_on_demand`,
`_bss_memory_read_hook`)

Read-address expressions are embedded by the three cases the hooks
distinguish: a concrete value (a Python `int`/`long` or a
non-symbolic bitvector), an ordinary symbolic value, and the engine's
uninitialized marker. -/

inductive SymVal where
  | conc (n : Nat)
  | sym (id : Nat)
  | uninit (id : Nat)
  deriving DecidableEq, Repr

/-- `read_addr.uninitialized` (after the `not isinstance(read_addr,
(int, long))` guard). -/
def is_uninitialized : SymVal → Bool
  | SymVal.uninit _ => true
  | _ => false

/-- `not isinstance(read_addr, (int, long)) and read_addr.symbolic`. -/
def is_symbolic : SymVal → Bool
  | SymVal.conc _ => false
  | _ => true

/-- `state.inspect.mem_read_length`: either a concrete int or an
abstract value, in which case `_model_vsa.upper_bound` is taken. -/
inductive ReadLen where
  | conc (n : Nat)
  | absv (upper_bound : Nat)
  deriving DecidableEq, Repr

def lenOf : ReadLen → Nat
  | ReadLen.conc n => n
  | ReadLen.absv ub => ub

/-- The state slice `_init_registers_on_demand` touches: the register
file, the pending read's address and length, the shared
`UninitReadMeta.uninit_read_base` counter, and the word width. -/
structure RegReadState where
  regs : List SymVal
  read_addr : SymVal
  read_length : ReadLen
  uninit_read_base : Nat
  bits : Nat
  deriving DecidableEq, Repr

/-- `JumpTableResolver._init_registers_on_demand`: when the pending
read's address is the engine's uninitialized marker and its length is
(or is bounded by) at most 16 bytes, fabricate a placeholder address
`BVV(uninit_read_base, bits)`, advance the shared counter by the read
length, replace every occurrence of the uninitialized value in the
register file (`state.registers.replace_all`) and re-point the pending
read at the placeholder; a longer read is left alone. -/
def init_registers_on_demand (s : RegReadState) : RegReadState :=
  if is_uninitialized s.read_addr then
    let read_length := lenOf s.read_length
    if read_length > 16 then s
    else
      let new_read_addr := SymVal.conc (s.uninit_read_base % 2 ^ s.bits)
      { s with
        uninit_read_base := s.uninit_read_base + read_length,
        regs := s.regs.map (fun r => if r = s.read_addr then new_read_addr else r),
        read_addr := new_read_addr }
  else s

/-- **C7.** For a pending read whose address is an uninitialized value:
if the (determined) read length is at most 16 bytes the hook assigns the
placeholder drawn from the shared counter, advances the counter by
exactly the read length, replaces every occurrence of the uninitialized
value in the register file with the placeholder and re-points the
pending read at it (leaving length and word width alone); if the read
length exceeds 16 bytes the hook performs no materialization and the
state is unchanged. -/
theorem c7_on_demand_materialization (s : RegReadState) (id : Nat)
    (haddr : s.read_addr = SymVal.uninit id) :
    (lenOf s.read_length ≤ 16 →
      (init_registers_on_demand s).uninit_read_base =
          s.uninit_read_base + lenOf s.read_length ∧
      (init_registers_on_demand s).read_addr =
          SymVal.conc (s.uninit_read_base % 2 ^ s.bits) ∧
      (init_registers_on_demand s).regs =
          s.regs.map (fun r => if r = SymVal.uninit id
            then SymVal.conc (s.uninit_read_base % 2 ^ s.bits) else r) ∧
      (init_registers_on_demand s).read_length = s.read_length ∧
      (init_registers_on_demand s).bits = s.bits) ∧
    (16 < lenOf s.read_length → init_registers_on_demand s = s) := by
  constructor
  · intro hlen
    have hnotgt : ¬ lenOf s.read_length > 16 := Nat.not_lt.mpr hlen
    simp [init_registers_on_demand, haddr, is_uninitialized, hnotgt]
  · intro hlen
    simp [init_registers_on_demand, haddr, is_uninitialized, Nat.lt_iff_add_one_le, hlen]

def regStateC7 : RegReadState :=
  { regs := [SymVal.uninit 3, SymVal.conc 5, SymVal.uninit 3],
    read_addr := SymVal.uninit 3,
    read_length := ReadLen.conc 8,
    uninit_read_base := 0xc000000,
    bits := 16 }

theorem c7_on_demand_materialization_witness :
    (lenOf regStateC7.read_length ≤ 16 →
      (init_registers_on_demand regStateC7).uninit_read_base =
          regStateC7.uninit_read_base + lenOf regStateC7.read_length ∧
      (init_registers_on_demand regStateC7).read_addr =
          SymVal.conc (regStateC7.uninit_read_base % 2 ^ regStateC7.bits) ∧
      (init_registers_on_demand regStateC7).regs =
          regStateC7.regs.map (fun r => if r = SymVal.uninit 3
            then SymVal.conc (regStateC7.uninit_read_base % 2 ^ regStateC7.bits) else r) ∧
      (init_registers_on_demand regStateC7).read_length = regStateC7.read_length ∧
      (init_registers_on_demand regStateC7).bits = regStateC7.bits) ∧
    (16 < lenOf regStateC7.read_length → init_registers_on_demand regStateC7 = regStateC7) :=
  c7_on_demand_materialization regStateC7 3 (by decide)

/-- A value held in memory: either concrete bytes or a freshly generated
unconstrained value (`state.se.Unconstrained('unconstrained', bits)`),
identified by the order it was generated in. -/
inductive MVal where
  | conc (n : Nat)
  | unconstrained (id : Nat)
  deriving DecidableEq, Repr

/-- The state slice `_bss_memory_read_hook` touches: the memory write
log (newest entry first, so `state.memory.was_written_to` and reads see
the most recent store), a counter for generating fresh unconstrained
values, the pending read's concretized address and length, and the word
width. -/
structure BssState where
  written : List (Nat × MVal)
  fresh : Nat
  read_addr : SymVal
  read_length : Nat
  bits : Nat
  deriving DecidableEq, Repr

/-- `state.memory.was_written_to(addr)`: the address was the start of
some earlier store in this state. -/
def was_written_to (written : List (Nat × MVal)) (a : Nat) : Bool :=
  written.any (fun p => p.1 == a)

/-- What a read of address `a` returns in this state: the most recent
store to `a`, else the on-disk `.bss` content, which is zero. -/
def mem_read_val (s : BssState) (a : Nat) : MVal :=
  match s.written.find? (fun p => p.1 == a) with
  | some p => p.2
  | none => MVal.conc 0

def mem_store (written : List (Nat × MVal)) (a : Nat) (v : MVal) : List (Nat × MVal) :=
  (a, v) :: written

/-- The iteration count of `xrange(0, concrete_read_length, self.arch.bits / 8)`. -/
def numWords (len w : Nat) : Nat := (len + w - 1) / w

/-- The store loop of `_bss_memory_read_hook`: `k` remaining words,
storing a fresh unconstrained value at each word-stride address. -/
def store_unconstrained_words (w : Nat) :
    Nat → Nat → Nat → List (Nat × MVal) → List (Nat × MVal) × Nat
  | 0, _, fresh, written => (written, fresh)
  | k + 1, a, fresh, written =>
      store_unconstrained_words w k (a + w) (fresh + 1)
        (mem_store written a (MVal.unconstrained fresh))

/-- Whether the concretized read address falls in one of the recorded
`.bss` regions (`start <= concrete_read_addr < start + size`). -/
def in_bss (regions : List (Nat × Nat)) (a : Nat) : Bool :=
  regions.any (fun r => decide (r.1 ≤ a) && decide (a < r.1 + r.2))

/-- `JumpTableResolver._bss_memory_read_hook`: nothing happens without
recorded `.bss` regions or for a symbolic read address; a concrete read
address inside a `.bss` region that was never written to has its read
span overwritten, word by word, with freshly generated unconstrained
values before the read proceeds. -/
def bss_memory_read_hook (regions : List (Nat × Nat)) (s : BssState) : BssState :=
  if regions.isEmpty then s
  else if is_symbolic s.read_addr then s
  else
    match s.read_addr with
    | SymVal.conc a =>
        if in_bss regions a then
          if was_written_to s.written a then s
          else
            let out := store_unconstrained_words (s.bits / 8)
              (numWords s.read_length (s.bits / 8)) a s.fresh s.written
            { s with written := out.1, fresh := out.2 }
        else s
    | _ => s

/-- The entries appended by the store loop, newest first. -/
def unc_entries (w : Nat) : Nat → Nat → Nat → List (Nat × MVal)
  | 0, _, _ => []
  | k + 1, a, fresh =>
      unc_entries w k (a + w) (fresh + 1) ++ [(a, MVal.unconstrained fresh)]

theorem store_unconstrained_words_eq (w : Nat) :
    ∀ (k a fresh : Nat) (written : List (Nat × MVal)),
      store_unconstrained_words w k a fresh written =
        (unc_entries w k a fresh ++ written, fresh + k) := by
  intro k
  induction k with
  | zero => intro a fresh written; simp [store_unconstrained_words, unc_entries]
  | succ k ih =>
      intro a fresh written
      rw [store_unconstrained_words, ih]
      simp [unc_entries, mem_store, List.append_assoc]
      omega

theorem bss_hook_already_written (regions : List (Nat × Nat)) (s : BssState) (a : Nat)
    (hreg : regions.isEmpty = false) (haddr : s.read_addr = SymVal.conc a)
    (hwr : was_written_to s.written a = true) :
    bss_memory_read_hook regions s = s := by
  simp [bss_memory_read_hook, hreg, haddr, hwr, is_symbolic]

theorem unc_entries_mem (w : Nat) :
    ∀ (k a fresh : Nat) (p : Nat × MVal), p ∈ unc_entries w k a fresh →
      ∃ j, j < k ∧ p = (a + j * w, MVal.unconstrained (fresh + j)) := by
  intro k
  induction k with
  | zero => intro a fresh p hp; simp [unc_entries] at hp
  | succ k ih =>
      intro a fresh p hp
      rw [unc_entries, List.mem_append] at hp
      cases hp with
      | inl hp =>
          obtain ⟨j, hj, hpj⟩ := ih (a + w) (fresh + 1) p hp
          refine ⟨j + 1, by omega, ?_⟩
          rw [hpj]
          have h1 : a + w + j * w = a + (j + 1) * w := by ring
          have h2 : fresh + 1 + j = fresh + (j + 1) := by omega
          rw [h1, h2]
      | inr hp =>
          simp at hp
          exact ⟨0, by omega, by simp [hp]⟩

theorem unc_entries_find (w : Nat) (hw : 1 ≤ w) :
    ∀ (k a fresh j : Nat), j < k →
      (unc_entries w k a fresh).find? (fun p => p.1 == a + j * w) =
        some (a + j * w, MVal.unconstrained (fresh + j)) := by
  intro k
  induction k with
  | zero => intro a fresh j hj; omega
  | succ k ih =>
      intro a fresh j hj
      rw [unc_entries, List.find?_append]
      cases j with
      | zero =>
          have hnone : (unc_entries w k (a + w) (fresh + 1)).find?
              (fun p => p.1 == a + 0 * w) = none := by
            rw [List.find?_eq_none]
            intro x hx
            obtain ⟨i, hi, hxi⟩ := unc_entries_mem w k (a + w) (fresh + 1) x hx
            rw [hxi]
            simp
            omega
          rw [hnone]
          simp
      | succ i =>
          have harith : a + (i + 1) * w = (a + w) + i * w := by ring
          rw [harith]
          rw [ih (a + w) (fresh + 1) i (by omega)]
          simp
          omega

/-- **C8.** A read from a recorded `.bss` region whose concrete address
was never written to in this state has its span overwritten word by word
with freshly generated unconstrained values before the read proceeds:
the write log grows by exactly the word-stride entries covering the read
length, the freshness counter advances by the word count, the read then
returns an unconstrained value — not the fixed zero of the on-disk
image — and running the hook again on the now-written state changes
nothing, so a re-read of the same address in the same state returns the
value that was first materialized. -/
theorem c8_bss_unconstrained (regions : List (Nat × Nat)) (s : BssState) (a : Nat)
    (hreg : regions.isEmpty = false)
    (haddr : s.read_addr = SymVal.conc a)
    (hin : in_bss regions a = true)
    (hunwritten : was_written_to s.written a = false)
    (hw : 1 ≤ s.bits / 8)
    (hlen : 1 ≤ s.read_length) :
    (bss_memory_read_hook regions s).written =
      unc_entries (s.bits / 8) (numWords s.read_length (s.bits / 8)) a s.fresh ++
        s.written ∧
    (bss_memory_read_hook regions s).fresh =
      s.fresh + numWords s.read_length (s.bits / 8) ∧
    mem_read_val (bss_memory_read_hook regions s) a = MVal.unconstrained s.fresh ∧
    (∀ m, mem_read_val (bss_memory_read_hook regions s) a ≠ MVal.conc m) ∧
    bss_memory_read_hook regions (bss_memory_read_hook regions s) =
      bss_memory_read_hook regions s ∧
    mem_read_val (bss_memory_read_hook regions (bss_memory_read_hook regions s)) a =
      MVal.unconstrained s.fresh := by
  have hw0 : 0 < s.bits / 8 := hw
  have hc : 1 ≤ numWords s.read_length (s.bits / 8) := by
    rw [numWords, Nat.le_div_iff_mul_le hw0]
    omega
  have hsym : is_symbolic s.read_addr = false := by rw [haddr]; rfl
  have hstore := store_unconstrained_words_eq (s.bits / 8)
    (numWords s.read_length (s.bits / 8)) a s.fresh s.written
  have hs1 : bss_memory_read_hook regions s =
      { s with
        written := unc_entries (s.bits / 8) (numWords s.read_length (s.bits / 8))
          a s.fresh ++ s.written,
        fresh := s.fresh + numWords s.read_length (s.bits / 8) } := by
    simp [bss_memory_read_hook, hreg, haddr, hin, hunwritten, hstore, is_symbolic]
  have hfind0 := unc_entries_find (s.bits / 8) hw
    (numWords s.read_length (s.bits / 8)) a s.fresh 0 hc
  have hpred : (fun p : Nat × MVal => p.1 == a + 0 * (s.bits / 8)) =
      (fun p : Nat × MVal => p.1 == a) := by
    funext p
    simp
  rw [hpred] at hfind0
  have hread : mem_read_val (bss_memory_read_hook regions s) a =
      MVal.unconstrained s.fresh := by
    rw [hs1]
    unfold mem_read_val
    rw [List.find?_append, hfind0]
    simp
  have hwr1 : was_written_to (bss_memory_read_hook regions s).written a = true := by
    rw [hs1]
    unfold was_written_to
    rw [List.any_append]
    have hmem := List.mem_of_find?_eq_some hfind0
    have : (unc_entries (s.bits / 8) (numWords s.read_length (s.bits / 8))
        a s.fresh).any (fun p => p.1 == a) = true :=
      List.any_eq_true.mpr ⟨_, hmem, by simp⟩
    simp [this]
  have haddr1 : (bss_memory_read_hook regions s).read_addr = SymVal.conc a := by
    rw [hs1]; exact haddr
  have hidem : bss_memory_read_hook regions (bss_memory_read_hook regions s) =
      bss_memory_read_hook regions s :=
    bss_hook_already_written regions (bss_memory_read_hook regions s) a hreg haddr1 hwr1
  refine ⟨by rw [hs1], by rw [hs1], hread, ?_, hidem, by rw [hidem, hread]⟩
  intro m
  rw [hread]
  simp

def regionsC8 : List (Nat × Nat) := [(1000, 64)]

def bssStateC8 : BssState :=
  { written := [(2000, MVal.conc 9)], fresh := 0, read_addr := SymVal.conc 1000,
    read_length := 4, bits := 16 }

theorem c8_bss_unconstrained_witness :
    (bss_memory_read_hook regionsC8 bssStateC8).written =
      unc_entries (bssStateC8.bits / 8) (numWords bssStateC8.read_length
        (bssStateC8.bits / 8)) 1000 bssStateC8.fresh ++ bssStateC8.written ∧
    (bss_memory_read_hook regionsC8 bssStateC8).fresh =
      bssStateC8.fresh + numWords bssStateC8.read_length (bssStateC8.bits / 8) ∧
    mem_read_val (bss_memory_read_hook regionsC8 bssStateC8) 1000 =
      MVal.unconstrained bssStateC8.fresh ∧
    (∀ m, mem_read_val (bss_memory_read_hook regionsC8 bssStateC8) 1000 ≠
      MVal.conc m) ∧
    bss_memory_read_hook regionsC8 (bss_memory_read_hook regionsC8 bssStateC8) =
      bss_memory_read_hook regionsC8 bssStateC8 ∧
    mem_read_val (bss_memory_read_hook regionsC8
        (bss_memory_read_hook regionsC8 bssStateC8)) 1000 =
      MVal.unconstrained bssStateC8.fresh :=
  c8_bss_unconstrained regionsC8 bssStateC8 1000 (by decide) (by decide) (by decide)
    (by decide) (by decide) (by decide)

/-- **C10.** The `.bss` hook leaves the state entirely unchanged when the
pending read's address expression is symbolic — symbolic-address reads
are never overwritten with unconstrained values, even when they could
fall inside a `.bss` region. -/
theorem c10_symbolic_untouched (regions : List (Nat × Nat)) (s : BssState)
    (h : is_symbolic s.read_addr = true) :
    bss_memory_read_hook regions s = s := by
  unfold bss_memory_read_hook
  by_cases hr : regions.isEmpty <;> simp [hr, h]

def bssStateC10 : BssState :=
  { written := [], fresh := 0, read_addr := SymVal.sym 0,
    read_length := 8, bits := 64 }

theorem c10_symbolic_untouched_witness :
    bss_memory_read_hook [(100, 50)] bssStateC10 = bssStateC10 :=
  c10_symbolic_untouched [(100, 50)] bssStateC10 (by decide)

end Angr
